import Mathlib

/-!
Verification of the delegation-activity feed pipeline (`DelegationActivity.tsx`
and related components): event merging, ENS-name enrichment and caching,
text/time filtering, aggregate totals, user sorting, pagination, and CSV export.

Modelling conventions for the TypeScript source:
* JavaScript string amounts (`stakedTokens`, `event.tokens`) are modelled by
  their numeric value as `Option ℚ`: `some q` is the value `Number`/`parseFloat`
  produces for a numeric string, `none` models `NaN` (a non-numeric string).
* Unix-second timestamps (`parseInt(event.blockTimestamp)`) are modelled as `ℕ`;
  `Date.now()` milliseconds as `ℤ`.
* `Array.prototype.sort` is modelled by `jsSort`, a stable sort that places `x`
  before `y` exactly when `comparator x y ≤ 0`.  For a consistent comparator
  this is the unique stable result required by ECMAScript; for an inconsistent
  comparator (one that never returns 0) the engine result is
  implementation-defined and this model fixes one concrete stable
  implementation.
* `Array.prototype.slice` with possibly negative arguments is modelled by
  `jsSlice`, including the negative-offset clamping of ECMAScript.
* `toLocaleString` amount formatting and `Date.toISOString` are floating-point
  and locale dependent, so the CSV builder takes them as function parameters.
* `ensName?: string | null` collapses `null` and `undefined` into `none`;
  every use in the source (`?? false`, `|| ""`, `|| id`) treats them alike.
-/

/-- Stable insertion of `x` into `l`: `x` goes in front of the first element
`y` with `le x y`.  Building block of `jsSort`. -/
def insertCmp (le : α → α → Bool) (x : α) : List α → List α
  | [] => [x]
  | y :: ys => if le x y then x :: y :: ys else y :: insertCmp le x ys

/-- Model of `Array.prototype.sort`: a stable sort that keeps `x` before `y`
exactly when `le x y` (that is, when `comparator x y ≤ 0`). -/
def jsSort (le : α → α → Bool) : List α → List α
  | [] => []
  | x :: xs => insertCmp le x (jsSort le xs)

/-- Model of `Array.prototype.slice(start, end)` including the ECMAScript
clamping of negative offsets (counted from the end of the array). -/
def jsSlice (l : List α) (s e : Int) : List α :=
  let n : Int := l.length
  let k : Int := if s < 0 then max (n + s) 0 else min s n
  let f : Int := if e < 0 then max (n + e) 0 else min e n
  (l.drop k.toNat).take (f - k).toNat

/-- Model of `Array.prototype.join(sep)`. -/
def jsJoin (sep : String) : List String → String
  | [] => ""
  | [x] => x
  | x :: y :: xs => x ++ sep ++ jsJoin sep (y :: xs)

/-- Lower-cased character data of a string; models `String.toLowerCase()`. -/
def lowerData (s : String) : List Char :=
  s.data.map Char.toLower

/-- Model of `haystack.toLowerCase().includes(needle.toLowerCase())`. -/
def jsIncludes (haystack needle : String) : Bool :=
  decide (lowerData needle <:+: lowerData haystack)

/-- Raw stake event as returned by the events source (`StakeEvent`). -/
structure StakeEvent where
  id : String
  delegator : String
  indexer : String
  tokens : Option ℚ
  blockTimestamp : Nat
  transactionHash : String
deriving DecidableEq, Repr

/-- The `delegator` field of a `Delegation` record. -/
structure DelegatorRef where
  id : String
  ensName : Option String
deriving DecidableEq, Repr

/-- The `indexer` field of a `Delegation` record; `accountImage` models
`account.metadata.image`. -/
structure IndexerRef where
  id : String
  ensName : Option String
  accountImage : Option String
deriving DecidableEq, Repr

/-- The unified `Delegation` activity record of the source. -/
structure Delegation where
  id : String
  delegator : DelegatorRef
  indexer : IndexerRef
  stakedTokens : Option ℚ
  unstakedTokens : Option ℚ
  lastDelegatedAt : Nat
  lastUndelegatedAt : Nat
  txHash : Option String
deriving DecidableEq, Repr

/-- Derived `isDelegation` flag: `lastDelegatedAt >= lastUndelegatedAt`. -/
def isDelegation (d : Delegation) : Bool :=
  decide (d.lastDelegatedAt ≥ d.lastUndelegatedAt)

/-- Derived effective timestamp: `Math.max(lastDelegatedAt, lastUndelegatedAt)`. -/
def effectiveTimestamp (d : Delegation) : Nat :=
  max d.lastDelegatedAt d.lastUndelegatedAt

/-- Mapping of deposit events to `Delegation` records
(`eventsData.data.stakeDelegateds.map(...)`). -/
def depositedEvents (events : List StakeEvent) : List Delegation :=
  events.map fun e =>
    { id := e.id
      delegator := { id := e.delegator, ensName := none }
      indexer := { id := e.indexer, ensName := none, accountImage := none }
      stakedTokens := e.tokens
      unstakedTokens := some 0
      lastDelegatedAt := e.blockTimestamp
      lastUndelegatedAt := 0
      txHash := some e.transactionHash }

/-- Mapping of withdrawal events to `Delegation` records
(`eventsData.data.stakeDelegatedWithdrawns.map(...)`). -/
def withdrawnEvents (events : List StakeEvent) : List Delegation :=
  events.map fun e =>
    { id := e.id
      delegator := { id := e.delegator, ensName := none }
      indexer := { id := e.indexer, ensName := none, accountImage := none }
      stakedTokens := some 0
      unstakedTokens := e.tokens
      lastDelegatedAt := 0
      lastUndelegatedAt := e.blockTimestamp
      txHash := some e.transactionHash }

/-- Comparator of the merge sort: `timeB - timeA` with
`time = Math.max(lastDelegatedAt, lastUndelegatedAt)`. -/
def mergeCmp (a b : Delegation) : Int :=
  (effectiveTimestamp b : Int) - (effectiveTimestamp a : Int)

/-- The merged feed: concatenate both event streams, sort by effective
timestamp descending, and cap at 100 records
(`[...depositedEvents, ...withdrawnEvents].sort(...).slice(0, 100)`). -/
def combinedEvents (dep wd : List StakeEvent) : List Delegation :=
  (jsSort (fun a b => decide (mergeCmp a b ≤ 0))
    (depositedEvents dep ++ withdrawnEvents wd)).take 100

/-- Enrichment of a merged batch with resolved ENS names
(`enhancedDelegations`); `resolve` models the value each lookup settles to. -/
def enhancedDelegations (resolve : String → Option String) (l : List Delegation) :
    List Delegation :=
  l.map fun d =>
    { d with
      delegator := { d.delegator with ensName := resolve d.delegator.id }
      indexer := { d.indexer with ensName := resolve d.indexer.id } }

/-- The ENS cache (`ensCache : Map<string, string | null>`), as an association
list; `some none` is a cached "no name" result. -/
def cacheFind (c : List (String × Option String)) (a : String) :
    Option (Option String) :=
  (c.find? fun p => decide (p.1 = a)).map Prod.snd

/-- One sequential call to `fetchEnsName`: on a cache hit return the cached
value without a lookup, on a miss perform one external lookup (whose settled
value is `ens a`, with `none` covering both "no name" and a swallowed failure)
and cache it.  Returns the value, the new cache, and whether a lookup was
issued. -/
def fetchEnsNameSeq (ens : String → Option String)
    (c : List (String × Option String)) (a : String) :
    Option String × List (String × Option String) × Bool :=
  match cacheFind c a with
  | some v => (v, c, false)
  | none => (ens a, (a, ens a) :: c, true)

/-- Sequential resolution of a list of addresses, each `fetchEnsName` call
awaited before the next begins.  Returns the final cache and the list of
addresses for which an external lookup was issued. -/
def resolveSeq (ens : String → Option String) :
    List (String × Option String) → List String →
    List (String × Option String) × List String
  | c, [] => (c, [])
  | c, a :: rest =>
    let step := fetchEnsNameSeq ens c a
    let next := resolveSeq ens step.2.1 rest
    (next.1, if step.2.2 then a :: next.2 else next.2)

/-- The addresses referenced by one enrichment pass, in the order the
`fetchEnsName` calls are made: delegator then indexer of each record. -/
def passAddresses (l : List Delegation) : List String :=
  (l.map fun d => [d.delegator.id, d.indexer.id]).flatten

/-- The external lookups issued during one concurrent enrichment pass.  All
`fetchEnsName` calls of the pass run their synchronous prefix (the cache
check) before any lookup settles — `ensCache.set` only happens after an
`await` — so every reference absent from the cache at the start of the pass
issues its own lookup. -/
def issuedInPass (c : List (String × Option String)) (l : List Delegation) :
    List String :=
  (passAddresses l).filter fun a => (cacheFind c a).isNone

/-- Text filter (`filtered`): keep records whose indexer id or indexer ENS
name contains the filter, case-insensitively. -/
def filtered (filt : String) (l : List Delegation) : List Delegation :=
  l.filter fun d =>
    jsIncludes d.indexer.id filt ||
      (match d.indexer.ensName with
       | some n => jsIncludes n filt
       | none => false)

/-- The selectable time window (`timeFilter`). -/
inductive TimeFilter
  | all
  | h24
  | h48
  | h72
deriving DecidableEq, Repr

/-- Time-window filter (`timeFiltered`): keep records whose effective
timestamp in milliseconds is at least `now` minus the window. -/
def timeFiltered (tf : TimeFilter) (now : Int) (l : List Delegation) :
    List Delegation :=
  l.filter fun d =>
    let latestTime : Int := (effectiveTimestamp d : Int) * 1000
    match tf with
    | .h24 => decide (latestTime ≥ now - 24 * 60 * 60 * 1000)
    | .h48 => decide (latestTime ≥ now - 48 * 60 * 60 * 1000)
    | .h72 => decide (latestTime ≥ now - 72 * 60 * 60 * 1000)
    | .all => true

/-- The `totalDelegatedGRT` reduce: for each record with
`lastDelegatedAt >= lastUndelegatedAt`, add `Number(stakedTokens) / 1e18`
unless the amount is `NaN`. -/
def totalDelegatedGRT (l : List Delegation) : ℚ :=
  l.foldl
    (fun acc d =>
      if d.lastDelegatedAt ≥ d.lastUndelegatedAt then
        match d.stakedTokens with
        | none => acc
        | some q => acc + q / 10 ^ 18
      else acc)
    0

/-- The `totalUndelegatedGRT` reduce: for each record with
`lastUndelegatedAt > lastDelegatedAt`, add `Number(unstakedTokens) / 1e18`
unless the amount is `NaN`. -/
def totalUndelegatedGRT (l : List Delegation) : ℚ :=
  l.foldl
    (fun acc d =>
      if d.lastUndelegatedAt > d.lastDelegatedAt then
        match d.unstakedTokens with
        | none => acc
        | some q => acc + q / 10 ^ 18
      else acc)
    0

/-- `netChange = totalDelegatedGRT - totalUndelegatedGRT`. -/
def netChange (l : List Delegation) : ℚ :=
  totalDelegatedGRT l - totalUndelegatedGRT l

/-- The aggregate totals the component exposes, computed over the records that
pass both the text filter and the time filter (the source computes the totals
on `timeFiltered`). -/
def aggTotalDelegatedGRT (filt : String) (tf : TimeFilter) (now : Int)
    (l : List Delegation) : ℚ :=
  totalDelegatedGRT (timeFiltered tf now (filtered filt l))

/-- Aggregate undelegated total over the doubly filtered view. -/
def aggTotalUndelegatedGRT (filt : String) (tf : TimeFilter) (now : Int)
    (l : List Delegation) : ℚ :=
  totalUndelegatedGRT (timeFiltered tf now (filtered filt l))

/-- Aggregate net change over the doubly filtered view. -/
def aggNetChange (filt : String) (tf : TimeFilter) (now : Int)
    (l : List Delegation) : ℚ :=
  netChange (timeFiltered tf now (filtered filt l))

/-- The selectable sort column (`sortBy`). -/
inductive SortKey
  | type
  | delegator
  | indexer
  | amount
  | updated
deriving DecidableEq, Repr

/-- The sort direction (`sortDirection`). -/
inductive SortDir
  | asc
  | desc
deriving DecidableEq, Repr

/-- A JavaScript comparison value: a string, a number, or `NaN` (which
`parseFloat` yields on a non-numeric amount). -/
inductive SKey
  | str (v : String)
  | num (v : ℚ)
  | nan
deriving DecidableEq, Repr

/-- The JavaScript `<` comparison on sort values; any comparison involving
`NaN` is false. -/
def jsLtKey : SKey → SKey → Bool
  | .str a, .str b => decide (a < b)
  | .num a, .num b => decide (a < b)
  | _, _ => false

/-- The sort value `valA`/`valB` selected for a record by `sortBy`. -/
def sortVal (k : SortKey) (d : Delegation) : SKey :=
  match k with
  | .type =>
    .str (if d.lastDelegatedAt ≥ d.lastUndelegatedAt
      then "Delegation" else "Undelegation")
  | .delegator => .str d.delegator.id
  | .indexer => .str d.indexer.id
  | .amount =>
    match (if d.lastDelegatedAt ≥ d.lastUndelegatedAt
      then d.stakedTokens else d.unstakedTokens) with
    | some q => .num q
    | none => .nan
  | .updated => .num ((max d.lastDelegatedAt d.lastUndelegatedAt : Nat) : ℚ)

/-- The user-sort comparator:
`(valA < valB ? -1 : 1) * (sortDirection === "asc" ? 1 : -1)`.
Note that it never returns 0. -/
def sortCmp (k : SortKey) (dir : SortDir) (a b : Delegation) : Int :=
  (if jsLtKey (sortVal k a) (sortVal k b) then (-1 : Int) else 1) *
    (match dir with | .asc => 1 | .desc => -1)

/-- The `sorted` view: the (time-)filtered records sorted with `sortCmp`. -/
def sortedView (k : SortKey) (dir : SortDir) (l : List Delegation) :
    List Delegation :=
  jsSort (fun a b => decide (sortCmp k dir a b ≤ 0)) l

/-- The page size constant (`PAGE_SIZE = 50`). -/
def PAGE_SIZE : Nat := 50

/-- Pagination (`sorted.slice((page - 1) * PAGE_SIZE, page * PAGE_SIZE)`),
with the page size as a parameter. -/
def paginated (l : List α) (pageSize : Nat) (page : Int) : List α :=
  jsSlice l ((page - 1) * pageSize) (page * pageSize)

/-- `totalPages = Math.ceil(length / PAGE_SIZE)`, with the page size as a
parameter (meaningful for a positive page size, where real-valued division
followed by ceiling is exact). -/
def totalPages (l : List α) (pageSize : Nat) : Nat :=
  (⌈(l.length : ℚ) / (pageSize : ℚ)⌉).toNat

/-- The CSV header cells of `exportCSV`. -/
def csvHeaders : List String :=
  ["Type", "Delegator", "Delegator ENS", "Indexer", "Indexer ENS",
    "Transaction", "Amount", "Updated"]

/-- Wrapping of a CSV field in double quotes, as the row template does. -/
def quoteField (s : String) : String :=
  "\"" ++ s ++ "\""

/-- One CSV data row.  `fmt` models `formatAmount` (locale-dependent
floating-point formatting) and `iso` models
`new Date(seconds * 1000).toISOString()`. -/
def csvRow (fmt : Option ℚ → String) (iso : Nat → String) (d : Delegation) :
    String :=
  jsJoin ","
    [if d.lastDelegatedAt ≥ d.lastUndelegatedAt
      then "Delegation" else "Undelegation",
      quoteField d.delegator.id,
      quoteField (d.delegator.ensName.getD ""),
      quoteField d.indexer.id,
      quoteField (d.indexer.ensName.getD ""),
      quoteField (d.txHash.getD ""),
      fmt (if d.lastDelegatedAt ≥ d.lastUndelegatedAt
        then d.stakedTokens else d.unstakedTokens),
      iso (if d.lastDelegatedAt ≥ d.lastUndelegatedAt
        then d.lastDelegatedAt else d.lastUndelegatedAt)]

/-- The CSV document of `exportCSV`: header row then one row per record of the
input view, joined with newlines. -/
def exportCSV (fmt : Option ℚ → String) (iso : Nat → String)
    (rows : List Delegation) : String :=
  jsJoin "\n" (jsJoin "," csvHeaders :: rows.map (csvRow fmt iso))

/-- Number of newline characters in a string. -/
def countNL (s : String) : Nat :=
  s.data.count '\n'

/-- The statement that `L` is the line decomposition of `s`: joining `L` with
newlines gives `s` and no piece of `L` contains a newline. -/
def hasLines (s : String) (L : List String) : Prop :=
  s = jsJoin "\n" L ∧ ∀ p ∈ L, countNL p = 0

/-- The component state the feed controller maintains
(`delegations`, `totalDelegators`, `activeDelegators`, `loading`, `error`). -/
structure FeedState where
  delegations : List Delegation
  totalDelegators : Option Nat
  activeDelegators : Option Nat
  loading : Bool
  error : Option String
deriving Repr

/-- Outcome of the secondary stats query: errored, structurally invalid, or a
pair of delegator counts. -/
inductive StatsResult
  | errored
  | missing
  | ok (total active : Nat)
deriving DecidableEq, Repr

/-- Outcome of one `fetchDelegations` refresh.  `failure` covers a rejected
fetch, an events-query error and a structurally invalid events payload; it
carries the stats outcome processed before the throw, when the stats stage was
reached.  `success` carries both event streams, the stats outcome, and the
settled value of each name lookup. -/
inductive FetchResult
  | failure (stats : Option StatsResult) (msg : String)
  | success (dep wd : List StakeEvent) (stats : StatsResult)
      (resolve : String → Option String)

/-- The stats setters: query errors and missing payloads degrade to zero
counts rather than failing the refresh. -/
def applyStats (s : FeedState) : StatsResult → FeedState
  | .errored => { s with totalDelegators := some 0, activeDelegators := some 0 }
  | .missing => { s with totalDelegators := some 0, activeDelegators := some 0 }
  | .ok t a => { s with totalDelegators := some t, activeDelegators := some a }

/-- One `fetchDelegations` refresh applied to the component state: set
`loading`, clear `error`, then either store the merged and enriched feed, or
on failure set the error message and clear the feed to the empty list. -/
def refresh (s : FeedState) : FetchResult → FeedState
  | .failure stats msg =>
    let s0 := { s with loading := true, error := none }
    let s1 := match stats with
      | some st => applyStats s0 st
      | none => s0
    { s1 with
      error := some ("Failed to load delegation activity: " ++ msg)
      delegations := []
      loading := false }
  | .success dep wd stats resolve =>
    let s0 := { s with loading := true, error := none }
    let s1 := applyStats s0 stats
    { s1 with
      delegations := enhancedDelegations resolve (combinedEvents dep wd)
      loading := false }

/-- Modelled from the spec: `totalDelegated = Σ stakedAmount` over the records
where `isDelegation` holds, summed in the token's smallest unit (a non-numeric
amount contributes zero). -/
def sumStakedDelegated (l : List Delegation) : ℚ :=
  ((l.filter fun d => isDelegation d).map fun d => d.stakedTokens.getD 0).sum

/-- Modelled from the spec: `totalUndelegated = Σ unstakedAmount` over the
records where `isDelegation` fails, summed in the token's smallest unit. -/
def sumUnstakedUndelegated (l : List Delegation) : ℚ :=
  ((l.filter fun d => !isDelegation d).map fun d => d.unstakedTokens.getD 0).sum

theorem mem_insertCmp {le : α → α → Bool} {x a : α} {l : List α} :
    a ∈ insertCmp le x l ↔ a = x ∨ a ∈ l := by
  induction l with
  | nil => simp [insertCmp]
  | cons y ys ih =>
    cases h : le x y with
    | true => simp [insertCmp, h]
    | false =>
      simp only [insertCmp, h, Bool.false_eq_true, if_false, List.mem_cons, ih]
      tauto

theorem perm_insertCmp (le : α → α → Bool) (x : α) (l : List α) :
    List.Perm (insertCmp le x l) (x :: l) := by
  induction l with
  | nil => simp [insertCmp]
  | cons y ys ih =>
    cases h : le x y with
    | true => simp [insertCmp, h]
    | false =>
      simp only [insertCmp, h, Bool.false_eq_true, if_false]
      exact List.Perm.trans (ih.cons y) (List.Perm.swap x y ys)

theorem perm_jsSort (le : α → α → Bool) (l : List α) :
    List.Perm (jsSort le l) l := by
  induction l with
  | nil => simp [jsSort]
  | cons x xs ih =>
    exact List.Perm.trans (perm_insertCmp le x (jsSort le xs)) (ih.cons x)

theorem mem_jsSort {le : α → α → Bool} {l : List α} {a : α} :
    a ∈ jsSort le l ↔ a ∈ l :=
  (perm_jsSort le l).mem_iff

theorem pairwise_insertCmp {le : α → α → Bool} {x : α} {l : List α}
    (htot : ∀ b ∈ l, le x b = true ∨ le b x = true)
    (htr : ∀ b ∈ l, ∀ c ∈ l, le x b = true → le b c = true → le x c = true)
    (hl : l.Pairwise fun a b => le a b = true) :
    (insertCmp le x l).Pairwise fun a b => le a b = true := by
  induction l with
  | nil => simp [insertCmp]
  | cons y ys ih =>
    rcases List.pairwise_cons.mp hl with ⟨hy, hys⟩
    cases h : le x y with
    | true =>
      simp only [insertCmp, h, if_true]
      refine List.pairwise_cons.mpr ⟨?_, hl⟩
      intro z hz
      rcases List.mem_cons.mp hz with hz | hz
      · exact hz ▸ h
      · exact htr y (by simp) z (by simp [hz]) h (hy z hz)
    | false =>
      simp only [insertCmp, h, Bool.false_eq_true, if_false]
      refine List.pairwise_cons.mpr ⟨?_, ?_⟩
      · intro z hz
        rcases mem_insertCmp.mp hz with hz | hz
        · subst hz
          rcases htot y (by simp) with h' | h'
          · rw [h'] at h
            exact absurd h (by simp)
          · exact h'
        · exact hy z hz
      · exact ih (fun b hb => htot b (by simp [hb]))
          (fun b hb c hc => htr b (by simp [hb]) c (by simp [hc])) hys

theorem pairwise_jsSort {le : α → α → Bool} {l : List α}
    (htot : l.Pairwise fun a b => le a b = true ∨ le b a = true)
    (htr : ∀ a ∈ l, ∀ b ∈ l, ∀ c ∈ l,
      le a b = true → le b c = true → le a c = true) :
    (jsSort le l).Pairwise fun a b => le a b = true := by
  induction l with
  | nil => simp [jsSort]
  | cons x xs ih =>
    rcases List.pairwise_cons.mp htot with ⟨hx, hxs⟩
    refine pairwise_insertCmp ?_ ?_ ?_
    · intro b hb
      exact hx b (mem_jsSort.mp hb)
    · intro b hb c hc
      exact htr x (by simp) b (by simp [mem_jsSort.mp hb])
        c (by simp [mem_jsSort.mp hc])
    · exact ih hxs fun a ha b hb c hc =>
        htr a (by simp [ha]) b (by simp [hb]) c (by simp [hc])

theorem jsSort_of_pairwise {le : α → α → Bool} {l : List α}
    (h : l.Pairwise fun a b => le a b = true) : jsSort le l = l := by
  induction l with
  | nil => rfl
  | cons x xs ih =>
    rcases List.pairwise_cons.mp h with ⟨hx, hxs⟩
    show insertCmp le x (jsSort le xs) = x :: xs
    rw [ih hxs]
    cases xs with
    | nil => rfl
    | cons y ys => simp [insertCmp, hx y (by simp)]

theorem jsSort_idem {le : α → α → Bool} {l : List α}
    (htot : l.Pairwise fun a b => le a b = true ∨ le b a = true)
    (htr : ∀ a ∈ l, ∀ b ∈ l, ∀ c ∈ l,
      le a b = true → le b c = true → le a c = true) :
    jsSort le (jsSort le l) = jsSort le l :=
  jsSort_of_pairwise (pairwise_jsSort htot htr)

theorem jsLtKey_asymm {a b : SKey} (h : jsLtKey a b = true) :
    jsLtKey b a = false := by
  cases a <;> cases b <;> simp_all [jsLtKey] <;> exact le_of_lt h

theorem jsLtKey_trans {a b c : SKey} (hab : jsLtKey a b = true)
    (hbc : jsLtKey b c = true) : jsLtKey a c = true := by
  cases a <;> cases b <;> cases c <;> simp_all [jsLtKey] <;>
    exact lt_trans hab hbc

theorem sortLe_asc (k : SortKey) (a b : Delegation) :
    decide (sortCmp k SortDir.asc a b ≤ 0) =
      jsLtKey (sortVal k a) (sortVal k b) := by
  cases h : jsLtKey (sortVal k a) (sortVal k b) <;> simp [sortCmp, h]

theorem sortLe_desc (k : SortKey) (a b : Delegation) :
    decide (sortCmp k SortDir.desc a b ≤ 0) =
      !jsLtKey (sortVal k a) (sortVal k b) := by
  cases h : jsLtKey (sortVal k a) (sortVal k b) <;> simp [sortCmp, h]

theorem sortVal_kind_eq (k : SortKey) (a b : Delegation)
    (ha : sortVal k a ≠ SKey.nan) (hb : sortVal k b ≠ SKey.nan) :
    (∃ s t, sortVal k a = SKey.str s ∧ sortVal k b = SKey.str t) ∨
      (∃ p q, sortVal k a = SKey.num p ∧ sortVal k b = SKey.num q) := by
  cases k
  case type => exact Or.inl ⟨_, _, rfl, rfl⟩
  case delegator => exact Or.inl ⟨_, _, rfl, rfl⟩
  case indexer => exact Or.inl ⟨_, _, rfl, rfl⟩
  case amount =>
    refine Or.inr ?_
    simp only [sortVal] at ha hb ⊢
    cases hsa : (if a.lastDelegatedAt ≥ a.lastUndelegatedAt
        then a.stakedTokens else a.unstakedTokens) with
    | none => rw [hsa] at ha; exact absurd rfl ha
    | some p =>
      cases hsb : (if b.lastDelegatedAt ≥ b.lastUndelegatedAt
          then b.stakedTokens else b.unstakedTokens) with
      | none => rw [hsb] at hb; exact absurd rfl hb
      | some q => exact ⟨p, q, rfl, rfl⟩
  case updated => exact Or.inr ⟨_, _, rfl, rfl⟩

theorem jsLt_total_of_ne {a b : SKey}
    (hk : (∃ s t, a = SKey.str s ∧ b = SKey.str t) ∨
      (∃ p q, a = SKey.num p ∧ b = SKey.num q))
    (hne : a ≠ b) : jsLtKey a b = true ∨ jsLtKey b a = true := by
  rcases hk with ⟨s, t, rfl, rfl⟩ | ⟨p, q, rfl, rfl⟩
  · have hst : s ≠ t := fun h => hne (by rw [h])
    rcases lt_or_gt_of_ne hst with h | h
    · exact Or.inl (by simp [jsLtKey, h])
    · exact Or.inr (by simp [jsLtKey, h])
  · have hpq : p ≠ q := fun h => hne (by rw [h])
    rcases lt_or_gt_of_ne hpq with h | h
    · exact Or.inl (by simp [jsLtKey, h])
    · exact Or.inr (by simp [jsLtKey, h])

theorem not_jsLt_trans {a b c : SKey}
    (hab : (∃ s t, a = SKey.str s ∧ b = SKey.str t) ∨
      (∃ p q, a = SKey.num p ∧ b = SKey.num q))
    (hbc : (∃ s t, b = SKey.str s ∧ c = SKey.str t) ∨
      (∃ p q, b = SKey.num p ∧ c = SKey.num q))
    (h1 : jsLtKey a b = false) (h2 : jsLtKey b c = false) :
    jsLtKey a c = false := by
  rcases hab with ⟨s, t, rfl, rfl⟩ | ⟨p, q, rfl, rfl⟩
  · rcases hbc with ⟨s', u, he, rfl⟩ | ⟨p', q', he, _⟩
    · cases he
      simp only [jsLtKey, decide_eq_false_iff_not, not_lt] at h1 h2 ⊢
      exact le_trans h2 h1
    · exact absurd he (by simp)
  · rcases hbc with ⟨s', u, he, _⟩ | ⟨p', q', he, rfl⟩
    · exact absurd he (by simp)
    · cases he
      simp only [jsLtKey, decide_eq_false_iff_not, not_lt] at h1 h2 ⊢
      exact le_trans h2 h1

/-- C1 — corrected.  The user-sort comparator never returns 0, so equal sort
keys are treated as out of order and a stable sort swaps them on every
ascending pass (see the counterexample).  Idempotence does hold in the
descending direction, and in either direction when the records' sort keys are
pairwise distinct; numeric amounts are assumed for the Amount key (a
non-numeric amount compares as `NaN`). -/
theorem sortedView_idempotent (k : SortKey) (dir : SortDir)
    (l : List Delegation)
    (hnum : ∀ d ∈ l, sortVal k d ≠ SKey.nan)
    (hdir : dir = SortDir.desc ∨
      l.Pairwise fun a b => sortVal k a ≠ sortVal k b) :
    sortedView k dir (sortedView k dir l) = sortedView k dir l := by
  unfold sortedView
  apply jsSort_idem
  · cases dir with
    | desc =>
      apply List.pairwise_of_forall
      intro a b
      rw [sortLe_desc, sortLe_desc]
      cases h : jsLtKey (sortVal k a) (sortVal k b) with
      | true => exact Or.inr (by simp [jsLtKey_asymm h])
      | false => exact Or.inl (by simp)
    | asc =>
      rcases hdir with hdesc | hdist
      · exact absurd hdesc (by simp)
      · rw [List.pairwise_iff_forall_sublist] at hdist ⊢
        intro a b hs
        have ha : a ∈ l := hs.subset (by simp)
        have hb : b ∈ l := hs.subset (by simp)
        rw [sortLe_asc, sortLe_asc]
        exact jsLt_total_of_ne
          (sortVal_kind_eq k a b (hnum a ha) (hnum b hb)) (hdist hs)
  · intro a ha b hb c hc h1 h2
    cases dir with
    | asc =>
      rw [sortLe_asc] at h1 h2 ⊢
      exact jsLtKey_trans h1 h2
    | desc =>
      rw [sortLe_desc] at h1 h2 ⊢
      simp only [Bool.not_eq_true'] at h1 h2 ⊢
      exact not_jsLt_trans
        (sortVal_kind_eq k a b (hnum a ha) (hnum b hb))
        (sortVal_kind_eq k b c (hnum b hb) (hnum c hc)) h1 h2

theorem cacheFind_cons (b : String) (v : Option String)
    (c : List (String × Option String)) (a : String) :
    cacheFind ((b, v) :: c) a = if b = a then some v else cacheFind c a := by
  by_cases h : b = a <;> simp [cacheFind, List.find?_cons, h]

theorem resolveSeq_issued_not_mem (ens : String → Option String) :
    ∀ (addrs : List String) (c : List (String × Option String)) (a : String),
      (cacheFind c a).isSome → a ∉ (resolveSeq ens c addrs).2 := by
  intro addrs
  induction addrs with
  | nil => intro c a _; simp [resolveSeq]
  | cons b rest ih =>
    intro c a ha
    cases hc : cacheFind c b with
    | some v =>
      simp only [resolveSeq, fetchEnsNameSeq, hc]
      exact ih c a ha
    | none =>
      simp only [resolveSeq, fetchEnsNameSeq, hc]
      have hab : b ≠ a := by
        intro h
        rw [h] at hc
        rw [hc] at ha
        simp at ha
      intro hmem
      rcases List.mem_cons.mp hmem with h | h
      · exact hab h.symm
      · refine ih ((b, ens b) :: c) a ?_ h
        rw [cacheFind_cons]
        by_cases hba : b = a
        · simp [hba]
        · simp [hba]
          exact ha

theorem resolveSeq_issued_nodup (ens : String → Option String) :
    ∀ (addrs : List String) (c : List (String × Option String)),
      ((resolveSeq ens c addrs).2).Nodup := by
  intro addrs
  induction addrs with
  | nil => intro c; simp [resolveSeq]
  | cons b rest ih =>
    intro c
    cases hc : cacheFind c b with
    | some v =>
      simp only [resolveSeq, fetchEnsNameSeq, hc]
      exact ih c
    | none =>
      simp only [resolveSeq, fetchEnsNameSeq, hc]
      refine List.nodup_cons.mpr ⟨?_, ih ((b, ens b) :: c)⟩
      refine resolveSeq_issued_not_mem ens rest ((b, ens b) :: c) b ?_
      rw [cacheFind_cons]
      simp

/-- C2 — corrected.  Within one concurrent enrichment pass the cache is only
written after a lookup settles, so duplicate references each issue their own
lookup (see the counterexample); the "at most one lookup per distinct
address" guarantee holds for sequential resolution, where each `fetchEnsName`
call is awaited before the next begins: the issued-lookup list of
`resolveSeq` never repeats an address, so every later request for a
previously resolved address is served from the cache. -/
theorem fetchEnsName_sequential_dedup (ens : String → Option String)
    (c : List (String × Option String)) (addrs : List String) (a : String) :
    ((resolveSeq ens c addrs).2).count a ≤ 1 :=
  List.nodup_iff_count_le_one.mp (resolveSeq_issued_nodup ens addrs c) a

/-- C2 counterexample: a cold-cache enrichment pass over two records that
share the delegator address `"0xa"` issues two lookups for that address. -/
theorem enrichment_pass_duplicate_lookups :
    ¬ ((issuedInPass []
      [⟨"e1", ⟨"0xa", none⟩, ⟨"0xb", none, none⟩, some 1, some 0, 10, 0, none⟩,
        ⟨"e2", ⟨"0xa", none⟩, ⟨"0xb", none, none⟩, some 2, some 0, 9, 0, none⟩]).count
      "0xa" ≤ 1) := by
  decide

theorem condDivFold_shift (p : Delegation → Prop) [DecidablePred p]
    (f : Delegation → Option ℚ) (c : ℚ) :
    ∀ (l : List Delegation) (a : ℚ),
      l.foldl (fun acc d => if p d then
          (match f d with | none => acc | some q => acc + q / c) else acc) a =
        a + l.foldl (fun acc d => if p d then
          (match f d with | none => acc | some q => acc + q / c) else acc) 0 := by
  intro l
  induction l with
  | nil => intro a; simp
  | cons d t ih =>
    intro a
    simp only [List.foldl_cons]
    by_cases hp : p d
    · cases hf : f d with
      | none => simp only [hp, if_true, hf]; exact ih a
      | some q =>
        simp only [hp, if_true, hf]
        rw [ih (a + q / c), ih (0 + q / c)]
        ring
    · simp only [hp, if_false]
      exact ih a

theorem condDivFold_eq_sum (p : Delegation → Prop) [DecidablePred p]
    (f : Delegation → Option ℚ) (c : ℚ) (l : List Delegation) :
    l.foldl (fun acc d => if p d then
        (match f d with | none => acc | some q => acc + q / c) else acc) 0 =
      ((l.filter fun d => decide (p d)).map fun d => (f d).getD 0).sum / c := by
  induction l with
  | nil => simp
  | cons d t ih =>
    simp only [List.foldl_cons, List.filter_cons]
    by_cases hp : p d
    · have hb : decide (p d) = true := decide_eq_true hp
      cases hf : f d with
      | none =>
        simp only [hb, if_true, hf, hp, decide_True, List.map_cons,
          List.sum_cons, Option.getD_none, if_pos]
        rw [ih]
        ring
      | some q =>
        simp only [hb, if_true, hf, hp, decide_True, List.map_cons,
          List.sum_cons, Option.getD_some, if_pos, zero_add]
        rw [condDivFold_shift p f c t (q / c), ih]
        ring
    · have hb : decide (p d) = false := decide_eq_false hp
      simp only [hb, Bool.false_eq_true, if_false, hp]
      exact ih

theorem totalDelegatedGRT_eq_sum (l : List Delegation) :
    totalDelegatedGRT l = sumStakedDelegated l / 10 ^ 18 := by
  have h := condDivFold_eq_sum
    (fun d => d.lastDelegatedAt ≥ d.lastUndelegatedAt)
    (fun d => d.stakedTokens) (10 ^ 18) l
  unfold totalDelegatedGRT sumStakedDelegated isDelegation
  exact h

theorem totalUndelegatedGRT_eq_sum (l : List Delegation) :
    totalUndelegatedGRT l = sumUnstakedUndelegated l / 10 ^ 18 := by
  have hpred : (fun d : Delegation => !isDelegation d)
      = fun d => decide (d.lastUndelegatedAt > d.lastDelegatedAt) := by
    funext d
    simp only [isDelegation, ← decide_not]
    exact decide_eq_decide.mpr (by omega)
  have h := condDivFold_eq_sum
    (fun d => d.lastUndelegatedAt > d.lastDelegatedAt)
    (fun d => d.unstakedTokens) (10 ^ 18) l
  unfold totalUndelegatedGRT sumUnstakedUndelegated
  rw [hpred]
  exact h

/-- C3 — corrected.  The source converts each record's amount to display units
inside the fold (`acc + tokens / 1e18`) rather than summing in the token's
smallest unit and dividing once at display time (see the counterexample);
over exact rational arithmetic the stored aggregate still equals the
smallest-unit sum divided by `10 ^ 18`. -/
theorem totals_eq_smallest_unit_sum_div (l : List Delegation) :
    totalDelegatedGRT l = sumStakedDelegated l / 10 ^ 18 ∧
    totalUndelegatedGRT l = sumUnstakedUndelegated l / 10 ^ 18 :=
  ⟨totalDelegatedGRT_eq_sum l, totalUndelegatedGRT_eq_sum l⟩

/-- C3 counterexample: with a single delegation record of `10 ^ 18` smallest
units the aggregate the component stores is `1`, already in display units —
the division happens per record inside the fold, not once after the whole
smallest-unit sum is formed. -/
theorem totalDelegated_divides_per_record :
    totalDelegatedGRT
        [⟨"e", ⟨"0xa", none⟩, ⟨"0xb", none, none⟩,
          some (10 ^ 18), some 0, 1, 0, none⟩] = 1 ∧
    sumStakedDelegated
        [⟨"e", ⟨"0xa", none⟩, ⟨"0xb", none, none⟩,
          some (10 ^ 18), some 0, 1, 0, none⟩] = 10 ^ 18 ∧
    totalDelegatedGRT
        [⟨"e", ⟨"0xa", none⟩, ⟨"0xb", none, none⟩,
          some (10 ^ 18), some 0, 1, 0, none⟩] ≠
      sumStakedDelegated
        [⟨"e", ⟨"0xa", none⟩, ⟨"0xb", none, none⟩,
          some (10 ^ 18), some 0, 1, 0, none⟩] := by
  refine ⟨?_, ?_, ?_⟩
  · norm_num [totalDelegatedGRT]
  · norm_num [sumStakedDelegated, isDelegation]
  · norm_num [totalDelegatedGRT, sumStakedDelegated, isDelegation]

/-- C4 — confirmed.  The aggregate totals are computed over the records that
pass both the text filter and the time window: `totalDelegated` is the sum of
the staked amounts of the `isDelegation` records of that view (in display
units), `totalUndelegated` the sum of the unstaked amounts of the remaining
records, `netChange` is exactly their difference, and the empty filtered view
yields all three zero. -/
theorem aggregates_follow_filters (l : List Delegation) (filt : String)
    (tf : TimeFilter) (now : Int) :
    aggTotalDelegatedGRT filt tf now l =
      sumStakedDelegated (timeFiltered tf now (filtered filt l)) / 10 ^ 18 ∧
    aggTotalUndelegatedGRT filt tf now l =
      sumUnstakedUndelegated (timeFiltered tf now (filtered filt l)) / 10 ^ 18 ∧
    aggNetChange filt tf now l =
      aggTotalDelegatedGRT filt tf now l - aggTotalUndelegatedGRT filt tf now l ∧
    (timeFiltered tf now (filtered filt l) = [] →
      aggTotalDelegatedGRT filt tf now l = 0 ∧
        aggTotalUndelegatedGRT filt tf now l = 0 ∧
        aggNetChange filt tf now l = 0) := by
  refine ⟨totalDelegatedGRT_eq_sum _, totalUndelegatedGRT_eq_sum _, rfl, ?_⟩
  intro h
  unfold aggNetChange aggTotalDelegatedGRT aggTotalUndelegatedGRT netChange
  rw [h]
  norm_num [totalDelegatedGRT, totalUndelegatedGRT]

/-- C1 counterexample: two records with equal Amount sort keys are swapped by
every ascending sort pass (the comparator never returns 0), so sorting an
already-sorted sequence a second time changes the order. -/
theorem ascending_sort_not_idempotent :
    sortedView SortKey.amount SortDir.asc
        (sortedView SortKey.amount SortDir.asc
          [⟨"a", ⟨"0x1", none⟩, ⟨"0x2", none, none⟩, some 1, some 0, 10, 0, none⟩,
            ⟨"b", ⟨"0x1", none⟩, ⟨"0x2", none, none⟩, some 1, some 0, 10, 0, none⟩]) ≠
      sortedView SortKey.amount SortDir.asc
        [⟨"a", ⟨"0x1", none⟩, ⟨"0x2", none, none⟩, some 1, some 0, 10, 0, none⟩,
          ⟨"b", ⟨"0x1", none⟩, ⟨"0x2", none, none⟩, some 1, some 0, 10, 0, none⟩] := by
  decide

/-- C1 witness: a concrete descending Amount sort with numeric amounts is
idempotent. -/
theorem sortedView_idempotent_witness :
    (∀ d ∈ ([⟨"a", ⟨"0x1", none⟩, ⟨"0x2", none, none⟩, some 2, some 0, 10, 0, none⟩,
        ⟨"b", ⟨"0x1", none⟩, ⟨"0x2", none, none⟩, some 1, some 0, 9, 0, none⟩] :
          List Delegation),
      sortVal SortKey.amount d ≠ SKey.nan) ∧
    sortedView SortKey.amount SortDir.desc
        (sortedView SortKey.amount SortDir.desc
          [⟨"a", ⟨"0x1", none⟩, ⟨"0x2", none, none⟩, some 2, some 0, 10, 0, none⟩,
            ⟨"b", ⟨"0x1", none⟩, ⟨"0x2", none, none⟩, some 1, some 0, 9, 0, none⟩]) =
      sortedView SortKey.amount SortDir.desc
        [⟨"a", ⟨"0x1", none⟩, ⟨"0x2", none, none⟩, some 2, some 0, 10, 0, none⟩,
          ⟨"b", ⟨"0x1", none⟩, ⟨"0x2", none, none⟩, some 1, some 0, 9, 0, none⟩] :=
  ⟨by decide,
    sortedView_idempotent SortKey.amount SortDir.desc _ (by decide) (Or.inl rfl)⟩

/-- C6 — confirmed.  For any pair of raw event streams, the merged feed
(before any user sort) has at most 100 records — the configured cap — and is
ordered non-increasingly by effective timestamp. -/
theorem combinedEvents_sorted_capped (dep wd : List StakeEvent) :
    (combinedEvents dep wd).length ≤ 100 ∧
    (combinedEvents dep wd).Pairwise
      (fun a b => effectiveTimestamp b ≤ effectiveTimestamp a) := by
  constructor
  · unfold combinedEvents
    rw [List.length_take]
    exact min_le_left _ _
  · unfold combinedEvents
    have hp : (jsSort (fun a b => decide (mergeCmp a b ≤ 0))
        (depositedEvents dep ++ withdrawnEvents wd)).Pairwise
        (fun a b => decide (mergeCmp a b ≤ 0) = true) := by
      apply pairwise_jsSort
      · apply List.pairwise_of_forall
        intro a b
        rcases le_total (effectiveTimestamp b) (effectiveTimestamp a) with h | h
        · exact Or.inl (decide_eq_true (by unfold mergeCmp; omega))
        · exact Or.inr (decide_eq_true (by unfold mergeCmp; omega))
      · intro a _ b _ c _ h1 h2
        have h1' := of_decide_eq_true h1
        have h2' := of_decide_eq_true h2
        apply decide_eq_true
        unfold mergeCmp at h1' h2' ⊢
        omega
    refine List.Pairwise.sublist (List.take_sublist _ _) (hp.imp ?_)
    intro a b h
    have h' := of_decide_eq_true h
    unfold mergeCmp at h'
    omega

/-- C7 — confirmed, assuming every raw event carries a positive numeric amount
and a positive timestamp: every merged record has exactly one non-zero amount
side, and the non-zero timestamp field matches it (deposit records have
`lastDelegatedAt > 0, lastUndelegatedAt = 0`, withdrawal records the
reverse). -/
theorem combinedEvents_record_shape (dep wd : List StakeEvent)
    (hdep : ∀ e ∈ dep, 0 < e.tokens.getD 0 ∧ 0 < e.blockTimestamp)
    (hwd : ∀ e ∈ wd, 0 < e.tokens.getD 0 ∧ 0 < e.blockTimestamp) :
    ∀ d ∈ combinedEvents dep wd,
      (0 < d.stakedTokens.getD 0 ∧ d.unstakedTokens = some 0 ∧
        0 < d.lastDelegatedAt ∧ d.lastUndelegatedAt = 0) ∨
      (0 < d.unstakedTokens.getD 0 ∧ d.stakedTokens = some 0 ∧
        0 < d.lastUndelegatedAt ∧ d.lastDelegatedAt = 0) := by
  intro d hd
  unfold combinedEvents at hd
  have hd1 := List.Sublist.mem hd (List.take_sublist _ _)
  have hd2 : d ∈ depositedEvents dep ++ withdrawnEvents wd := mem_jsSort.mp hd1
  rcases List.mem_append.mp hd2 with h | h
  · left
    unfold depositedEvents at h
    obtain ⟨e, he, rfl⟩ := List.mem_map.mp h
    obtain ⟨h1, h2⟩ := hdep e he
    exact ⟨h1, rfl, h2, rfl⟩
  · right
    unfold withdrawnEvents at h
    obtain ⟨e, he, rfl⟩ := List.mem_map.mp h
    obtain ⟨h1, h2⟩ := hwd e he
    exact ⟨h1, rfl, h2, rfl⟩

/-- C7 witness: one deposit and one withdrawal event with positive amounts and
timestamps produce records of the stated shape. -/
theorem combinedEvents_record_shape_witness :
    ((∀ e ∈ ([⟨"d1", "0xa", "0xb", some 5, 100, "0xt"⟩] : List StakeEvent),
        0 < e.tokens.getD 0 ∧ 0 < e.blockTimestamp) ∧
      (∀ e ∈ ([⟨"w1", "0xc", "0xd", some 3, 200, "0xu"⟩] : List StakeEvent),
        0 < e.tokens.getD 0 ∧ 0 < e.blockTimestamp)) ∧
    (∀ d ∈ combinedEvents [⟨"d1", "0xa", "0xb", some 5, 100, "0xt"⟩]
        [⟨"w1", "0xc", "0xd", some 3, 200, "0xu"⟩],
      (0 < d.stakedTokens.getD 0 ∧ d.unstakedTokens = some 0 ∧
        0 < d.lastDelegatedAt ∧ d.lastUndelegatedAt = 0) ∨
      (0 < d.unstakedTokens.getD 0 ∧ d.stakedTokens = some 0 ∧
        0 < d.lastUndelegatedAt ∧ d.lastDelegatedAt = 0)) :=
  ⟨⟨by decide, by decide⟩,
    combinedEvents_record_shape _ _ (by decide) (by decide)⟩

/-- C8 — confirmed.  Whenever a refresh fails (rejected fetch, events-query
error, or invalid events payload), the stored feed is cleared to the empty
list, a user-facing error message is set, and loading ends — no stale
non-empty snapshot survives into the failed state. -/
theorem refresh_failure_clears_feed (s : FeedState) (stats : Option StatsResult)
    (msg : String) :
    (refresh s (FetchResult.failure stats msg)).delegations = [] ∧
    (refresh s (FetchResult.failure stats msg)).error =
      some ("Failed to load delegation activity: " ++ msg) ∧
    (refresh s (FetchResult.failure stats msg)).loading = false := by
  cases stats with
  | none => exact ⟨rfl, rfl, rfl⟩
  | some st => cases st <;> exact ⟨rfl, rfl, rfl⟩

/-- C10 — confirmed.  Enrichment maps the merged sequence record by record:
the length and order are preserved, every field except the two ENS-name
fields is unchanged, and the name fields receive exactly the resolved values
for the record's own addresses. -/
theorem enhancedDelegations_frame (resolve : String → Option String)
    (l : List Delegation) :
    (enhancedDelegations resolve l).length = l.length ∧
    List.Forall₂
      (fun e d =>
        e.id = d.id ∧ e.delegator.id = d.delegator.id ∧
        e.indexer.id = d.indexer.id ∧
        e.indexer.accountImage = d.indexer.accountImage ∧
        e.stakedTokens = d.stakedTokens ∧ e.unstakedTokens = d.unstakedTokens ∧
        e.lastDelegatedAt = d.lastDelegatedAt ∧
        e.lastUndelegatedAt = d.lastUndelegatedAt ∧ e.txHash = d.txHash ∧
        e.delegator.ensName = resolve d.delegator.id ∧
        e.indexer.ensName = resolve d.indexer.id)
      (enhancedDelegations resolve l) l := by
  constructor
  · simp [enhancedDelegations]
  · induction l with
    | nil => simp [enhancedDelegations]
    | cons d t ih =>
      exact List.Forall₂.cons
        ⟨rfl, rfl, rfl, rfl, rfl, rfl, rfl, rfl, rfl, rfl, rfl⟩ ih

theorem jsSlice_nonneg (l : List α) (s e : Int) (hs : 0 ≤ s) (he : 0 ≤ e) :
    jsSlice l s e = (l.drop s.toNat).take (e.toNat - s.toNat) := by
  unfold jsSlice
  simp only [if_neg (by omega : ¬ s < 0), if_neg (by omega : ¬ e < 0)]
  by_cases hsn : (l.length : Int) ≤ s
  · rw [min_eq_right hsn, Int.toNat_natCast, List.drop_length,
      List.drop_eq_nil_of_le (by omega : l.length ≤ s.toNat)]
    simp
  · rw [min_eq_left (by omega : s ≤ (l.length : Int))]
    by_cases hen : (l.length : Int) ≤ e
    · rw [min_eq_right hen]
      rw [List.take_of_length_le (by rw [List.length_drop]; omega)]
      rw [List.take_of_length_le (by rw [List.length_drop]; omega)]
    · rw [min_eq_left (by omega : e ≤ (l.length : Int))]
      congr 1
      omega

theorem totalPages_eq_div (l : List α) (ps : Nat) (hps : 0 < ps) :
    totalPages l ps = (l.length + ps - 1) / ps := by
  unfold totalPages
  rcases Nat.eq_zero_or_pos l.length with h0 | hpos
  · rw [h0]
    rw [Nat.div_eq_of_lt (by omega : 0 + ps - 1 < ps)]
    simp
  · have hceil : ⌈(l.length : ℚ) / (ps : ℚ)⌉ = (((l.length + ps - 1) / ps : ℕ) : ℤ) := by
      have hdm := Nat.div_add_mod (l.length + ps - 1) ps
      have hmod : (l.length + ps - 1) % ps < ps := Nat.mod_lt _ hps
      have hm1 : 1 ≤ (l.length + ps - 1) / ps := by
        rw [Nat.le_div_iff_mul_le hps]
        omega
      rw [Int.ceil_eq_iff]
      constructor
      · rw [lt_div_iff₀ (by positivity : (0 : ℚ) < (ps : ℚ))]
        have hcast : ((((l.length + ps - 1) / ps : ℕ) : ℤ) : ℚ) - 1 =
            ((((l.length + ps - 1) / ps - 1 : ℕ)) : ℚ) := by
          rw [Int.cast_natCast, Nat.cast_sub hm1, Nat.cast_one]
        rw [hcast]
        have hlt : ((l.length + ps - 1) / ps - 1) * ps < l.length := by
          have e1 : ((l.length + ps - 1) / ps - 1) * ps =
              ps * ((l.length + ps - 1) / ps) - ps := by
            rw [Nat.sub_mul, one_mul, Nat.mul_comm]
          rw [e1]
          generalize hP : ps * ((l.length + ps - 1) / ps) = P at hdm ⊢
          omega
        exact_mod_cast hlt
      · rw [div_le_iff₀ (by positivity : (0 : ℚ) < (ps : ℚ))]
        have hle : l.length ≤ ((l.length + ps - 1) / ps) * ps := by
          rw [Nat.mul_comm]
          generalize hP : ps * ((l.length + ps - 1) / ps) = P at hdm ⊢
          omega
        exact_mod_cast hle
    rw [hceil, Int.toNat_natCast]

/-- C9 — corrected.  For page numbers at least 1 the slice is exactly the
`pageNumber`-th window of `pageSize` records, page numbers past the end and
page 0 yield an empty slice, and `totalPages` is the ceiling of
`length / pageSize` (0 for the empty sequence); but a negative page number
follows the slice primitive's negative-offset semantics and can return a
non-empty slice (see the counterexample), so "any out-of-range page number
yields an empty slice" holds only for page numbers that are at least 0. -/
theorem paginated_totalPages_spec {α : Type} (l : List α) (ps : Nat)
    (hps : 0 < ps) :
    (∀ page : Int, 1 ≤ page →
      paginated l ps page = (l.drop ((page - 1).toNat * ps)).take ps) ∧
    (∀ page : Int, 1 ≤ page → l.length ≤ (page - 1).toNat * ps →
      paginated l ps page = []) ∧
    paginated l ps 0 = [] ∧
    totalPages l ps = (l.length + ps - 1) / ps ∧
    (l = [] → totalPages l ps = 0) ∧
    (∀ page : Int, (totalPages l ps : Int) < page → paginated l ps page = []) := by
  have h1 : ∀ page : Int, 1 ≤ page →
      paginated l ps page = (l.drop ((page - 1).toNat * ps)).take ps := by
    intro page hpage
    obtain ⟨m, rfl⟩ : ∃ m : Nat, page = (m : Int) + 1 :=
      ⟨(page - 1).toNat, by omega⟩
    rw [show ((m : Int) + 1 - 1).toNat = m by omega]
    unfold paginated
    rw [show ((m : Int) + 1 - 1) * ps = ((m * ps : ℕ) : Int) by push_cast; ring]
    rw [show ((m : Int) + 1) * ps = (((m + 1) * ps : ℕ) : Int) by push_cast; ring]
    rw [jsSlice_nonneg _ _ _ (Int.natCast_nonneg _) (Int.natCast_nonneg _)]
    rw [Int.toNat_natCast, Int.toNat_natCast]
    rw [show (m + 1) * ps - m * ps = ps by rw [Nat.succ_mul]; omega]
  have h2 : ∀ page : Int, 1 ≤ page → l.length ≤ (page - 1).toNat * ps →
      paginated l ps page = [] := by
    intro page hpage hlen
    rw [h1 page hpage, List.drop_eq_nil_of_le hlen, List.take_nil]
  refine ⟨h1, h2, ?_, totalPages_eq_div l ps hps, ?_, ?_⟩
  · unfold paginated jsSlice
    rw [show ((0 : Int) - 1) * ps = -(ps : Int) by ring, zero_mul]
    simp only [if_pos (show -(ps : Int) < 0 by omega),
      if_neg (show ¬ (0 : Int) < 0 by omega)]
    rw [min_eq_left (Int.natCast_nonneg _)]
    rw [Int.toNat_of_nonpos (by
      have := le_max_right ((l.length : Int) + -(ps : Int)) 0
      omega)]
    exact List.take_zero _
  · intro hl
    subst hl
    rw [totalPages_eq_div _ _ hps]
    simp only [List.length_nil]
    exact Nat.div_eq_of_lt (by omega)
  · intro page hpage
    refine h2 page (by omega) ?_
    have hnm : l.length ≤ totalPages l ps * ps := by
      rw [totalPages_eq_div _ _ hps]
      have hdm := Nat.div_add_mod (l.length + ps - 1) ps
      have hmod : (l.length + ps - 1) % ps < ps := Nat.mod_lt _ hps
      rw [Nat.mul_comm]
      generalize hP : ps * ((l.length + ps - 1) / ps) = P at hdm ⊢
      omega
    calc l.length ≤ totalPages l ps * ps := hnm
      _ ≤ (page - 1).toNat * ps := Nat.mul_le_mul_right _ (by omega)

/-- C9 counterexample: the out-of-range page number `-1` does not yield an
empty slice — the slice primitive interprets negative offsets from the end of
the sequence. -/
theorem paginated_negative_page_not_empty :
    paginated ([10, 20] : List Nat) 1 (-1) ≠ [] := by
  decide

/-- C9 witness: with page size 2 over three records, page 4 is past the end
and yields the empty slice, and `totalPages` is the ceiling of `3 / 2`. -/
theorem paginated_totalPages_spec_witness :
    0 < 2 ∧ paginated ([7, 8, 9] : List Nat) 2 4 = [] ∧
      totalPages ([7, 8, 9] : List Nat) 2 =
        (([7, 8, 9] : List Nat).length + 2 - 1) / 2 :=
  ⟨by decide,
    (paginated_totalPages_spec ([7, 8, 9] : List Nat) 2 (by decide)).2.1 4
      (by decide) (by decide),
    (paginated_totalPages_spec ([7, 8, 9] : List Nat) 2 (by decide)).2.2.2.1⟩

theorem countNL_eq_zero {s : String} : countNL s = 0 ↔ '\n' ∉ s.data := by
  unfold countNL
  exact List.count_eq_zero

theorem nlfree_sep_append_inj :
    ∀ (a a' X X' : List Char), '\n' ∉ a → '\n' ∉ a' →
      a ++ '\n' :: X = a' ++ '\n' :: X' → a = a' ∧ X = X' := by
  intro a
  induction a with
  | nil =>
    intro a' X X' _ ha' h
    cases a' with
    | nil => simpa using h
    | cons c t =>
      simp only [List.nil_append, List.cons_append, List.cons.injEq] at h
      exact absurd (by rw [h.1]; exact List.mem_cons_self c t) ha'
  | cons c t ih =>
    intro a' X X' ha ha' h
    cases a' with
    | nil =>
      simp only [List.nil_append, List.cons_append, List.cons.injEq] at h
      obtain ⟨rfl, -⟩ := h
      exact absurd (List.mem_cons_self _ _) ha
    | cons c' t' =>
      simp only [List.cons_append, List.cons.injEq] at h
      obtain ⟨rfl, h2⟩ := h
      obtain ⟨h3, h4⟩ := ih t' X X'
        (fun hm => ha (List.mem_cons_of_mem _ hm))
        (fun hm => ha' (List.mem_cons_of_mem _ hm)) h2
      exact ⟨by rw [h3], h4⟩

theorem data_jsJoin_cons₂ (x y : String) (xs : List String) :
    (jsJoin "\n" (x :: y :: xs)).data =
      x.data ++ '\n' :: (jsJoin "\n" (y :: xs)).data := by
  show (x ++ "\n" ++ jsJoin "\n" (y :: xs)).data = _
  rw [String.data_append, String.data_append, List.append_assoc]
  rfl

theorem jsJoin_nl_inj :
    ∀ (L L' : List String), L ≠ [] → L' ≠ [] →
      (∀ p ∈ L, countNL p = 0) → (∀ p ∈ L', countNL p = 0) →
      jsJoin "\n" L = jsJoin "\n" L' → L = L' := by
  intro L
  induction L with
  | nil => intro L' h; exact absurd rfl h
  | cons x t ih =>
    intro L' _ hne hL hL' heq
    cases L' with
    | nil => exact absurd rfl hne
    | cons x' t' =>
      cases t with
      | nil =>
        cases t' with
        | nil =>
          rw [show jsJoin "\n" [x] = x from rfl,
            show jsJoin "\n" [x'] = x' from rfl] at heq
          rw [heq]
        | cons y' r' =>
          exfalso
          have hd : x.data = x'.data ++ '\n' :: (jsJoin "\n" (y' :: r')).data := by
            rw [show jsJoin "\n" [x] = x from rfl] at heq
            rw [heq]
            exact data_jsJoin_cons₂ x' y' r'
          have hmem : '\n' ∈ x.data := by
            rw [hd]
            exact List.mem_append_right _ (List.mem_cons_self _ _)
          exact (countNL_eq_zero.mp (hL x (by simp))) hmem
      | cons y r =>
        cases t' with
        | nil =>
          exfalso
          have hd : x'.data = x.data ++ '\n' :: (jsJoin "\n" (y :: r)).data := by
            rw [show jsJoin "\n" [x'] = x' from rfl] at heq
            rw [← heq]
            exact data_jsJoin_cons₂ x y r
          have hmem : '\n' ∈ x'.data := by
            rw [hd]
            exact List.mem_append_right _ (List.mem_cons_self _ _)
          exact (countNL_eq_zero.mp (hL' x' (by simp))) hmem
        | cons y' r' =>
          have hd := congrArg String.data heq
          rw [data_jsJoin_cons₂ x y r, data_jsJoin_cons₂ x' y' r'] at hd
          obtain ⟨h3, h4⟩ := nlfree_sep_append_inj x.data x'.data _ _
            (countNL_eq_zero.mp (hL x (by simp)))
            (countNL_eq_zero.mp (hL' x' (by simp))) hd
          have hx : x = x' := String.ext h3
          have hj : jsJoin "\n" (y :: r) = jsJoin "\n" (y' :: r') :=
            String.ext h4
          have ht := ih (y' :: r') (by simp) (by simp)
            (fun p hp => hL p (by simp [hp]))
            (fun p hp => hL' p (by simp [hp])) hj
          rw [hx, ht]

/-- C5 — corrected.  The fixed header row of the export is
`Type,Delegator,Delegator ENS,Indexer,Indexer ENS,Transaction,Amount,Updated`
(the two name columns are labelled "ENS", not "Name" — see the
counterexample); with that header the rest of the claim holds: provided no
rendered row contains a newline, the document's line decomposition is exactly
the header followed by one row per input record in the caller-supplied order,
`N + 1` lines in total, and the empty input yields exactly the header row. -/
theorem exportCSV_shape (fmt : Option ℚ → String) (iso : Nat → String)
    (rows : List Delegation)
    (h : ∀ d ∈ rows, countNL (csvRow fmt iso d) = 0) :
    jsJoin "," csvHeaders =
      "Type,Delegator,Delegator ENS,Indexer,Indexer ENS,Transaction,Amount,Updated" ∧
    hasLines (exportCSV fmt iso rows)
      (jsJoin "," csvHeaders :: rows.map (csvRow fmt iso)) ∧
    (jsJoin "," csvHeaders :: rows.map (csvRow fmt iso)).length =
      rows.length + 1 ∧
    (∀ L, L ≠ [] → hasLines (exportCSV fmt iso rows) L →
      L = jsJoin "," csvHeaders :: rows.map (csvRow fmt iso)) := by
  have hpieces : ∀ p ∈ jsJoin "," csvHeaders :: rows.map (csvRow fmt iso),
      countNL p = 0 := by
    intro p hp
    rcases List.mem_cons.mp hp with rfl | hp
    · decide
    · obtain ⟨d, hd, rfl⟩ := List.mem_map.mp hp
      exact h d hd
  refine ⟨by decide, ⟨rfl, hpieces⟩, by simp, ?_⟩
  intro L hne hL
  exact jsJoin_nl_inj L _ hne (by simp) hL.2 hpieces hL.1.symm

/-- C5 counterexample: applied to the empty sequence the export yields the
header with "Delegator ENS"/"Indexer ENS" columns, not the
"Delegator Name"/"Indexer Name" header the claim states. -/
theorem exportCSV_header_not_name :
    exportCSV (fun _ => "0.00") (fun _ => "1970-01-01T00:00:00.000Z") [] ≠
      "Type,Delegator,Delegator Name,Indexer,Indexer Name,Transaction,Amount,Updated" := by
  decide

/-- C5 witness: one record rendered with newline-free formatters gives a
two-line document. -/
theorem exportCSV_shape_witness :
    (∀ d ∈ ([⟨"e1", ⟨"0xa", none⟩, ⟨"0xb", none, none⟩, some 1, some 0, 5, 0,
        some "0xh"⟩] : List Delegation),
      countNL (csvRow (fun _ => "0.00")
        (fun _ => "1970-01-01T00:00:00.000Z") d) = 0) ∧
    (jsJoin "," csvHeaders ::
        ([⟨"e1", ⟨"0xa", none⟩, ⟨"0xb", none, none⟩, some 1, some 0, 5, 0,
          some "0xh"⟩] : List Delegation).map
          (csvRow (fun _ => "0.00") (fun _ => "1970-01-01T00:00:00.000Z"))).length =
      ([⟨"e1", ⟨"0xa", none⟩, ⟨"0xb", none, none⟩, some 1, some 0, 5, 0,
        some "0xh"⟩] : List Delegation).length + 1 :=
  ⟨by decide,
    (exportCSV_shape (fun _ => "0.00") (fun _ => "1970-01-01T00:00:00.000Z")
      _ (by decide)).2.2.1⟩

/-- C4 witness: the empty snapshot has an empty filtered view and zero
aggregates under the default filters. -/
theorem aggregates_follow_filters_witness :
    timeFiltered TimeFilter.all 0 (filtered "" ([] : List Delegation)) = [] ∧
      (aggTotalDelegatedGRT "" TimeFilter.all 0 ([] : List Delegation) = 0 ∧
        aggTotalUndelegatedGRT "" TimeFilter.all 0 ([] : List Delegation) = 0 ∧
        aggNetChange "" TimeFilter.all 0 ([] : List Delegation) = 0) :=
  ⟨rfl, (aggregates_follow_filters ([] : List Delegation) "" TimeFilter.all 0).2.2.2 rfl⟩
